import Mathlib

/-!
Verification of the TR-069 model-to-spreadsheet converter
(`tr069excelifier.py`).

The development shallowly embeds the converter: Python strings become
`String`, XML elements that the code probes duck-typed (the `syntax`
descriptor of a parameter) become the generic tree `XElem`, fallible code
(attribute dereference of an absent element, `re.sub` with a `None`
replacement, string concatenation with `None`) becomes `Option`, and the
pandas operations are given their documented semantics (`applymap` is a
map over every cell, multi-column `sort_values` is a stable lexicographic
sort, `pd.unique` keeps first-occurrence order).

A central point of fidelity: `xml.etree.ElementTree` elements are *falsy*
when they have no children, and the source tests `if syntax:`,
`if not param_type:`, `if param_type:` on elements.  The embedding keeps
exactly that behaviour (`truthyOpt`, `children.isEmpty` tests), because
several branches of `add_syntax` are only reachable for elements that
have children.

The spreadsheet emitter (fonts, widths, the actual `wb.save`) is pure
presentation; the embedding stops at the `Workbook` value holding the two
fully built tables and the merge ranges, which is exactly the data the
emitter writes.  `parseModel` returns `none` when the Python run would
die with an exception before reaching `wb.save`.
-/

namespace TR069

/-! ## Python string helpers -/

/-- Python `"{:<8}".format(s)` / `"{:<12}".format(s)`: left-justify by
padding with spaces on the right up to width `w` (unchanged when already
at least `w` long). -/
def padRight (w : Nat) (s : String) : String :=
  s ++ String.mk (List.replicate (w - s.length) ' ')

/-- Python `sep.join(parts)`. -/
def joinSep (sep : String) : List String → String
  | [] => ""
  | [s] => s
  | s :: rest => s ++ sep ++ joinSep sep rest

/-- Sequential fallible iteration: the Python `for` loop that dies at the
first raised exception.  `none` models the aborted run. -/
def mapOpt (f : α → Option β) : List α → Option (List β)
  | [] => some []
  | x :: t => do
      let y ← f x
      let ys ← mapOpt f t
      some (y :: ys)

/-- `re.sub(' +', ' ', s)`: each maximal run of spaces collapses to a
single space.  The fuel argument (the input length suffices, every step
consumes at least one character) keeps the recursion structural so that
the function reduces inside the kernel. -/
def csAux : Nat → List Char → List Char
  | 0, _ => []
  | _ + 1, [] => []
  | fuel + 1, c :: rest =>
    if c == ' ' then
      ' ' :: csAux fuel (rest.drop (rest.takeWhile (fun ch => ch == ' ')).length)
    else c :: csAux fuel rest

def collapseSpaces (s : String) : String := ⟨csAux s.data.length s.data⟩

/-- `re.sub('\n', '', s)`: drop every newline character. -/
def removeNewlines (s : String) : String := ⟨s.data.filter (fun c => c != '\n')⟩

/-- The characters Python `str.strip()` removes (ASCII whitespace). -/
def isPyWs (c : Char) : Bool :=
  c == ' ' || c == '\t' || c == '\n' || c == '\r' || c == '\x0b' || c == '\x0c'

/-- Python `s.strip()`. -/
def pyStrip (s : String) : String :=
  ⟨((s.data.dropWhile isPyWs).reverse.dropWhile isPyWs).reverse⟩

/-- `process_text` (src line 251-252): collapse space runs, remove
newlines, strip.  Applied by `clean_model` to every cell of the Model
table via `applymap`. -/
def processText (s : String) : String := pyStrip (removeNewlines (collapseSpaces s))

/-! ## Literal-pattern substitution (`re.sub` with a literal pattern) -/

/-- Left-to-right non-overlapping replacement of the literal pattern
`p0 :: prest` by `rep`; the scan continues in the original text after a
match, exactly like `re.sub`.  (Replacement-escape processing of `re.sub`
is not modelled; the replacement values in scope are XML names without
backslashes.) -/
def raAux (p0 : Char) (prest rep : List Char) : Nat → List Char → List Char
  | 0, _ => []
  | _ + 1, [] => []
  | fuel + 1, c :: rest =>
    if (p0 :: prest).isPrefixOf (c :: rest) then
      rep ++ raAux p0 prest rep fuel ((c :: rest).drop (prest.length + 1))
    else
      c :: raAux p0 prest rep fuel rest

def replaceAll (pat rep s : String) : String :=
  match pat.data with
  | [] => s
  | p0 :: prest => ⟨raAux p0 prest rep.data s.data.length s.data⟩

/-! ## The denylist pass (src line 269-270)

One `re.sub` whose pattern is the alternation of seven literals, each a
low-value placeholder preceded by exactly one space.  At any position at
most one alternative can match, so the single left-to-right pass below is
exactly the regex semantics.  `denyHit l = some k` means a denylist
literal of length `k + 1` starts at the head of `l`. -/

def denyHit (l : List Char) : Option Nat :=
  if (" \x7b\x7bnumentries\x7d\x7d".data).isPrefixOf l then some 14
  else if (" \x7b\x7bdatatype|expand\x7d\x7d".data).isPrefixOf l then some 19
  else if (" \x7b\x7bpattern\x7d\x7d".data).isPrefixOf l then some 11
  else if (" \x7b\x7benum\x7d\x7d".data).isPrefixOf l then some 8
  else if (" \x7b\x7blist\x7d\x7d".data).isPrefixOf l then some 8
  else if (" \x7b\x7breference\x7d\x7d".data).isPrefixOf l then some 13
  else if (" \x7b\x7bnoreference\x7d\x7d".data).isPrefixOf l then some 15
  else none

def sdAux : Nat → List Char → List Char
  | 0, _ => []
  | _ + 1, [] => []
  | fuel + 1, c :: rest =>
    match denyHit (c :: rest) with
    | some k => sdAux fuel ((c :: rest).drop (k + 1))
    | none => c :: sdAux fuel rest

def stripDeny (s : String) : String := ⟨sdAux s.data.length s.data⟩

/-! ## The generic placeholder passes (src lines 273 and 276) -/

/-- Python `\w` restricted to ASCII: the texts in scope are ASCII. -/
def isWordChar (c : Char) : Bool := c.isAlphanum || c == '_'

/-- Matcher for the pattern of src line 273 (two braces, a word, a pipe,
a payload free of closing braces, two braces) at the head of `l`:
`some (payload, k)` with `k + 1` the matched length.  Greedy `takeWhile`
matching coincides with the regex because neither character class can
consume the delimiter that follows it. -/
def pipeHit (l : List Char) : Option (List Char × Nat) :=
  match l with
  | '\x7b' :: '\x7b' :: r1 =>
    let w := r1.takeWhile isWordChar
    if w.isEmpty then none
    else
      match r1.drop w.length with
      | '|' :: r3 =>
        let p := r3.takeWhile (fun ch => ch != '\x7d')
        if p.isEmpty then none
        else
          match r3.drop p.length with
          | '\x7d' :: '\x7d' :: _ => some (p, 4 + w.length + p.length)
          | _ => none
      | _ => none
  | _ => none

def spAux : Nat → List Char → List Char
  | 0, _ => []
  | _ + 1, [] => []
  | fuel + 1, c :: rest =>
    match pipeHit (c :: rest) with
    | some (p, k) => p ++ spAux fuel ((c :: rest).drop (k + 1))
    | none => c :: spAux fuel rest

/-- src line 273: unwrap `word|payload` placeholders to the payload. -/
def subPipe (s : String) : String := ⟨spAux s.data.length s.data⟩

/-- Matcher for the pattern of src line 276 (two braces, a word, two
braces): `some (word, k)` with `k + 1` the matched length. -/
def wordHit (l : List Char) : Option (List Char × Nat) :=
  match l with
  | '\x7b' :: '\x7b' :: r1 =>
    let w := r1.takeWhile isWordChar
    if w.isEmpty then none
    else
      match r1.drop w.length with
      | '\x7d' :: '\x7d' :: _ => some (w, 3 + w.length)
      | _ => none
  | _ => none

def swAux : Nat → List Char → List Char
  | 0, _ => []
  | _ + 1, [] => []
  | fuel + 1, c :: rest =>
    match wordHit (c :: rest) with
    | some (w, k) => w ++ swAux fuel ((c :: rest).drop (k + 1))
    | none => c :: swAux fuel rest

/-- src line 276: strip the braces from any remaining simple placeholder. -/
def subWord (s : String) : String := ⟨swAux s.data.length s.data⟩

/-- `map_params` (src lines 254-277): the five placeholder-resolution
steps in their fixed source order — object value, parameter value,
denylist deletion, pipe unwrapping, brace stripping. -/
def mapParams (objV paramV text : String) : String :=
  subWord (subPipe (stripDeny
    (replaceAll "\x7b\x7bparam\x7d\x7d" paramV
      (replaceAll "\x7b\x7bobject\x7d\x7d" objV text))))

/-! ## XML elements (for the duck-typed `syntax` descriptor)

`xml.etree.ElementTree` specifics that `add_syntax` depends on:
an `Element` is truthy iff it has child elements; `find` returns the
first child with the given tag or `None`; `findall` returns all such
children; `get` returns an attribute value or `None`; `.text` is the
element's text or `None` (and `str(None)` prints as `"None"`). -/

inductive XElem where
  | mk (tag : String) (attrs : List (String × String)) (txt : Option String)
       (children : List XElem)

def XElem.tag : XElem → String
  | .mk t _ _ _ => t

def XElem.attrs : XElem → List (String × String)
  | .mk _ a _ _ => a

def XElem.txt : XElem → Option String
  | .mk _ _ t _ => t

def XElem.children : XElem → List XElem
  | .mk _ _ _ c => c

/-- `elem.find(tag)`. -/
def XElem.find (e : XElem) (t : String) : Option XElem :=
  e.children.find? (fun c => c.tag == t)

/-- `elem.findall(tag)`. -/
def XElem.findall (e : XElem) (t : String) : List XElem :=
  e.children.filter (fun c => c.tag == t)

/-- `elem.get(key)`. -/
def XElem.attr (e : XElem) (k : String) : Option String :=
  (e.attrs.find? (fun a => a.1 == k)).map (fun a => a.2)

/-- Python truthiness of a `find` result: `None` is falsy, and an
`Element` is truthy iff it has children. -/
def truthyOpt : Option XElem → Bool
  | none => false
  | some e => !e.children.isEmpty

/-- `"{}".format(elem.text)`: `str(None)` is `"None"`. -/
def pyText (e : XElem) : String := e.txt.getD "None"

/-! ## The input data model

What `parse_model` reads from the tree.  Attributes the code always
dereferences without failing (`get` results fed into dicts or format
strings) stay plain `String`; the `description` *element*, whose absence
makes `.text` raise `AttributeError`, is `Option String` (`none` models
the absent element). -/

structure Param where
  name : String
  access : String
  description : Option String
  status : Option String
  activeNotify : Option String
  forcedInform : Option String
  syn : Option XElem

structure Object where
  name : String
  access : String
  description : Option String
  params : List Param

structure ProfParamRef where
  ref : String
  requirement : String
  deriving DecidableEq

structure ProfObjRef where
  ref : String
  requirement : String
  params : List ProfParamRef
  deriving DecidableEq

structure Profile where
  name : String
  base : Option String
  extendsAttr : Option String
  objects : List ProfObjRef
  deriving DecidableEq

structure Model where
  name : String
  objects : List Object
  profiles : List Profile

/-! ## `get_params` (src lines 30-130) -/

/-- `add_optionals` (src lines 40-57): append a left-justified optional
attribute when it is truthy (present and non-empty). -/
def addOptionals (prev : String) (paramName : String) (optional : Option String) : String :=
  match optional with
  | some v => if v != "" && paramName != "syntax" then prev ++ " " ++ padRight 8 v ++ " " else prev
  | none => prev

/-- The accumulated optional-flag prefix of src lines 120-123:
`status`, `activeNotify`, `forcedInform`, in that order. -/
def optFlags (p : Param) : String :=
  addOptionals (addOptionals (addOptionals "" "status" p.status)
    "activeNotify" p.activeNotify) "forcedInform" p.forcedInform

/-- src lines 112-114: after the type branch, a *truthy* `default` child
appends its `.text`.  A childless `default` element is falsy and is
skipped. -/
def applyDefault (syn : XElem) (p : String) : String :=
  match syn.find "default" with
  | some d => if d.children.isEmpty then p else p ++ " " ++ pyText d
  | none => p

/-- The branch body of `add_syntax` (src lines 72-110), without the
trailing `default` handling.  `none` models a raised exception:
`"|".join` over a `None` enumeration value, `"max length " + None`, or
`re.sub` with a `None` unit replacement all raise `TypeError`. -/
def addSynCore (syn : XElem) (prev desc : String) : Option (String × String) :=
  if truthyOpt (syn.find "boolean") then
    -- src line 110 (reached only for a boolean element that has children)
    some (prev ++ " Boolean", desc)
  else
    match syn.find "string" with
    | some strEl =>
      if strEl.children.isEmpty then
        -- a childless string element is falsy: fall through (src line 78)
        otherBranch syn prev desc
      else
        -- string parameter processing (src lines 97-107)
        let enums := strEl.findall "enumeration"
        if !enums.isEmpty then
          match mapOpt (fun e => e.attr "value") enums with
          | some vals => some ("Enums (" ++ joinSep "|" vals ++ ")", desc)
          | none => none
        else
          match strEl.find "size" with
          | some sz =>
            if !sz.children.isEmpty then
              match sz.attr "maxLength" with
              | some ml => some (prev ++ " String" ++ ("max length " ++ ml), desc)
              | none => none
            else
              -- childless size element is falsy: syntax_text stays empty
              some (prev ++ " String" ++ "", desc)
          | none => some (prev ++ " String" ++ "", desc)
    | none => otherBranch syn prev desc
where
  /-- src lines 79-94: take the first child of the syntax element, use
  its tag as the type text, extend with the unit and substitute any
  units placeholder in the description. -/
  otherBranch (syn : XElem) (prev desc : String) : Option (String × String) :=
    match syn.children with
    | [] => some (prev, desc)
    | c :: _ =>
      match c.find "units" with
      | some u =>
        match u.attr "value" with
        | some uv =>
          some (prev ++ " " ++ (c.tag ++ " in " ++ uv),
                replaceAll "\x7b\x7bunits\x7d\x7d" uv desc)
        | none => none
      | none => some (prev ++ " " ++ c.tag, desc)

/-- `add_syntax` (src lines 59-116): skipped entirely when the syntax
element is absent or falsy (childless); otherwise the type branch
followed by the `default` handling. -/
def addSyn (synOpt : Option XElem) (prev desc : String) : Option (String × String) :=
  match synOpt with
  | none => some (prev, desc)
  | some syn =>
    if syn.children.isEmpty then some (prev, desc)
    else
      match addSynCore syn prev desc with
      | some (p, d) => some (applyDefault syn p, d)
      | none => none

/-- `get_params` (src lines 30-130): name, access, and the parameter
description prefixed by the flag/type annotation.  `none` models the
`AttributeError` on a missing description element (src line 118) or a
failure inside `add_syntax`. -/
def getParams (p : Param) : Option (String × String × String) := do
  let desc ← p.description
  let (text, desc2) ← addSyn p.syn (optFlags p) desc
  some (p.name, p.access, text ++ " " ++ desc2)

/-! ## `parse_object` (src lines 132-167) -/

/-- One row of the Model table (a FlatRow). -/
structure Row where
  object : String
  access : String
  description : String
  parameter : String
  paramAccess : String
  paramDescription : String
  deriving DecidableEq

/-- `parse_object`: one row per parameter, or a single row with empty
parameter fields for a childless object; the object's own description is
space-collapsed (src lines 151 and 161). -/
def parseObject (o : Object) : Option (List Row) :=
  match o.params with
  | [] => do
      let d ← o.description
      some [{ object := o.name, access := o.access, description := collapseSpaces d,
              parameter := "", paramAccess := "", paramDescription := "" }]
  | ps =>
      mapOpt (fun p => do
        let (n, a, pd) ← getParams p
        let d ← o.description
        some { object := o.name, access := o.access, description := collapseSpaces d,
               parameter := n, paramAccess := a, paramDescription := pd }) ps

/-- The number of flattened rows `parse_object` emits for an object. -/
def rowCount (o : Object) : Nat :=
  if o.params.isEmpty then 1 else o.params.length

/-! ## Profiles (src lines 171-209) -/

/-- One row of the Profiles table. -/
structure ProfileRow where
  profile : String
  name : String
  requirement : String
  base : String
  extendsA : String
  parameters : Option String
  deriving DecidableEq

/-- `get_profile_params` (src lines 171-182): requirement left-justified
(padded on the right) to width 12, a space, the referenced name. -/
def getProfileParams (r : ProfParamRef) : String :=
  padRight 12 r.requirement ++ " " ++ r.ref

/-- `parse_profile` (src lines 184-209): the `Parameters` key is only
set when the object reference has parameter children (`none` models the
absent dict key). -/
def parseProfile (pr : Profile) (o : ProfObjRef) : ProfileRow :=
  { profile := pr.name
    name := o.ref
    requirement := o.requirement
    base := pr.base.getD ""
    extendsA := pr.extendsAttr.getD ""
    parameters :=
      match o.params with
      | [] => none
      | ps => some (joinSep "\n" (ps.map getProfileParams)) }

/-- src line 303: for each profile, one row per object reference. -/
def rawProfileRows (m : Model) : List ProfileRow :=
  m.profiles.flatMap (fun pr => pr.objects.map (parseProfile pr))

/-! ## Stable lexicographic sort of the Profiles table (src line 312)

`DataFrame.sort_values(by=['Profile', 'Name', 'Base'])` with several
columns uses `numpy.lexsort`, which is a stable ascending lexicographic
sort on the underlying strings.  Below is that semantics as a stable
insertion sort. -/

/-- The lexicographic "less or equal" on the (Profile, Name, Base) key. -/
def profLe (a b : ProfileRow) : Bool :=
  if a.profile != b.profile then decide (a.profile < b.profile)
  else if a.name != b.name then decide (a.name < b.name)
  else decide (a.base ≤ b.base)

/-- Stable insert: a later-input row goes after strictly smaller keys
and *before* rows it compares `profLe` with (in particular equal keys),
so earlier-input rows with an equal key stay in front only when they are
already in the sorted suffix built from later input — see
`sortProfiles`. -/
def insertRow (x : ProfileRow) : List ProfileRow → List ProfileRow
  | [] => [x]
  | y :: t => if profLe x y then x :: y :: t else y :: insertRow x t

def sortProfiles : List ProfileRow → List ProfileRow
  | [] => []
  | x :: t => insertRow x (sortProfiles t)

/-- Whether a row's (Profile, Name, Base) sort key equals `(p, n, b)`. -/
def keyq (p n b : String) (r : ProfileRow) : Bool :=
  r.profile == p && r.name == n && r.base == b

/-! ## `clean_model` (src lines 233-286) -/

/-- `applymap(process_text)` on one row: every cell of the Model table
is whitespace-normalized. -/
def cleanRowText (r : Row) : Row :=
  { object := processText r.object
    access := processText r.access
    description := processText r.description
    parameter := processText r.parameter
    paramAccess := processText r.paramAccess
    paramDescription := processText r.paramDescription }

/-- `clean_model`: normalize every cell, then resolve placeholders in
the `Parameter Description` column, then in the `Description` column
(src lines 281-284). -/
def cleanModel (rows : List Row) : List Row :=
  let m1 := rows.map cleanRowText
  let m2 := m1.map (fun r =>
    { r with paramDescription := mapParams r.object r.parameter r.paramDescription })
  m2.map (fun r =>
    { r with description := mapParams r.object r.parameter r.description })

/-! ## Grouping metadata (src lines 307-308) -/

/-- The `Object` column of the Model table. -/
def colObjects (rows : List Row) : List String := rows.map Row.object

/-- The positions of value `v` in a column — the pandas index set
`df[df['Object'] == o].index` (ascending). -/
def idxs : List String → String → List Nat
  | [], _ => []
  | x :: t, v => (if x = v then [0] else []) ++ (idxs t v).map (fun i => i + 1)

/-- Python `min` over a list of indices (never called on an empty set by
the source; 0 is a junk default). -/
def pyMin : List Nat → Nat
  | [] => 0
  | x :: t => t.foldl min x

/-- Python `max` over a list of indices. -/
def pyMax : List Nat → Nat
  | [] => 0
  | x :: t => t.foldl max x

/-- src line 308: the worksheet merge range for one object value —
`(2 + min(indices), 2 + max(indices))` (row 1 is the header, pandas
indices are 0-based). -/
def mergeRange (col : List String) (v : String) : Nat × Nat :=
  (2 + pyMin (idxs col v), 2 + pyMax (idxs col v))

/-- `pd.unique` (src line 307): distinct values in first-occurrence
order (`seen` accumulates the values already emitted). -/
def dedupAux (seen : List String) : List String → List String
  | [] => []
  | x :: t => if seen.contains x then dedupAux seen t else x :: dedupAux (x :: seen) t

def dedupFirst (l : List String) : List String := dedupAux [] l

/-! ## `parse_model` (src lines 289-342)

Everything up to the data the spreadsheet emitter writes: the cleaned
Model table, the sorted Profiles table and the merge ranges.  The
`rename` of the first index label (src line 310) and all styling are
presentation only and carry no table data.  `wb.save` runs strictly
after every table is built; `none` is a run that died earlier. -/

structure Workbook where
  model : List Row
  profiles : List ProfileRow
  ranges : List (Nat × Nat)
  deriving DecidableEq

def parseModel (m : Model) : Option Workbook := do
  let tbls ← mapOpt parseObject m.objects
  let dfModel := cleanModel tbls.flatten
  let uniques := dedupFirst (colObjects dfModel)
  let ranges := uniques.map (mergeRange (colObjects dfModel))
  let dfProfile := sortProfiles (rawProfileRows m)
  some { model := dfModel, profiles := dfProfile, ranges := ranges }

/-! ## Specification-derived definition (refinement comparison only)

`padLeftClaim` follows the words of the specification of the Profiles
`Parameters` field — "requirement left-padded to 12 characters", i.e.
padding spaces on the *left* — so it can be compared with the source's
`padRight`-based rendering. -/

def padLeftClaim (w : Nat) (s : String) : String :=
  String.mk (List.replicate (w - s.length) ' ') ++ s

/-! ## Concrete inputs used by the counterexamples and witnesses -/

def pA1 : Param := ⟨"P1", "readWrite", some "d1", none, none, none, none⟩

def pA2 : Param := ⟨"P2", "readOnly", some "d2", some "deprecated", none, none, none⟩

def oA : Object := ⟨"A.", "readOnly", some "a  desc", [pA1, pA2]⟩

def oB : Object := ⟨"B.", "readOnly", some "b", []⟩

def m1 : Model := ⟨"2.12", [oA, oB], []⟩

def tbls1 : List (List Row) :=
  [[⟨"A.", "readOnly", "a desc", "P1", "readWrite", " d1"⟩,
    ⟨"A.", "readOnly", "a desc", "P2", "readOnly", " deprecated  d2"⟩],
   [⟨"B.", "readOnly", "b", "", "", ""⟩]]

def o3 : Object := ⟨"Device.", "readOnly", some "Root.", [⟨"X", "readOnly", some "D.", none, none, none, none⟩]⟩

def pr3 : Profile := ⟨"My  Profile", none, none, [⟨"Device.", "present", []⟩]⟩

def m3 : Model := ⟨"2.12", [o3], [pr3]⟩

def wb3 : Workbook :=
  { model := [⟨"Device.", "readOnly", "Root.", "X", "readOnly", "D."⟩]
    profiles := [⟨"My  Profile", "Device.", "present", "", "", none⟩]
    ranges := [(2, 2)] }

def pr8 : Profile :=
  ⟨"Prof", none, none, [⟨"A.", "present", [⟨"A.P1", "readWrite"⟩, ⟨"A.P2", "readOnly"⟩]⟩]⟩

def m8 : Model := ⟨"2.12", [oA, oB], [pr8]⟩

def wb8 : Workbook :=
  { model := [⟨"A.", "readOnly", "a desc", "P1", "readWrite", "d1"⟩,
              ⟨"A.", "readOnly", "a desc", "P2", "readOnly", "deprecated d2"⟩,
              ⟨"B.", "readOnly", "b", "", "", ""⟩]
    profiles := [⟨"Prof", "A.", "present", "", "",
                  some "readWrite    A.P1\nreadOnly     A.P2"⟩]
    ranges := [(2, 3), (4, 4)] }

def p9 : Param := ⟨"Q", "readOnly", none, none, none, none, none⟩

def o9 : Object := ⟨"C.", "readOnly", some "c", [p9]⟩

def m9 : Model := ⟨"2.12", [o9], []⟩

/-- A typical boolean parameter: `<syntax><boolean/><default value="true"/></syntax>`.
Both child elements are childless, hence falsy. -/
def boolSyn : XElem :=
  .mk "syntax" [] none
    [.mk "boolean" [] none [], .mk "default" [("value", "true")] none []]

def p4 : Param := ⟨"Enable", "readWrite", some "Enables it.", none, none, none, some boolSyn⟩

/-- A string parameter with a max-length constraint:
`<syntax><string><size maxLength="N"/></string></syntax>`. -/
def sizeSynEmpty (n : String) : XElem :=
  .mk "syntax" [] none
    [.mk "string" [] none [.mk "size" [("maxLength", n)] none []]]

/-- The same shape but with a (non-standard) child inside `size`, making
the `size` element truthy. -/
def sizeSynChild (n : String) : XElem :=
  .mk "syntax" [] none
    [.mk "string" [] none [.mk "size" [("maxLength", n)] none [.mk "note" [] none []]]]

def p5 : Param := ⟨"Host", "readOnly", some "Hostname.", none, none, none, some (sizeSynEmpty "64")⟩

/-- `<enumeration value="v"/>`. -/
def enumElem (v : String) : XElem := .mk "enumeration" [("value", v)] none []

/-- `<syntax><string><enumeration value="v1"/>...</string></syntax>`. -/
def stringEnumSyn (vs : List String) : XElem :=
  .mk "syntax" [] none [.mk "string" [] none (vs.map enumElem)]

def pr6 : Profile := ⟨"P", none, none, []⟩

def ob6 : ProfObjRef := ⟨"X", "r", [⟨"X.E", "r"⟩]⟩

/-! # Theorems -/

theorem string_append_empty (s : String) : s ++ "" = s := by
  cases s with
  | mk d => show String.mk (d ++ []) = String.mk d
            rw [List.append_nil]

theorem string_append_assoc (a b c : String) : a ++ b ++ c = a ++ (b ++ c) := by
  cases a with
  | mk da =>
    cases b with
    | mk db =>
      cases c with
      | mk dc => show String.mk (da ++ db ++ dc) = String.mk (da ++ (db ++ dc))
                 rw [List.append_assoc]

/-- C2: `map_params` applies the five resolution steps in the fixed
source order — object value, then parameter value, then denylist
deletion, then pipe unwrapping, then brace stripping — and on the
specified row it resolves "Value of ((param)) in ((object))" (written
with braces) to "Value of Enable in Device.WiFi". -/
theorem placeholder_resolution :
    (∀ ov pv t, mapParams ov pv t =
       subWord (subPipe (stripDeny (replaceAll "\x7b\x7bparam\x7d\x7d" pv
         (replaceAll "\x7b\x7bobject\x7d\x7d" ov t))))) ∧
    mapParams "Device.WiFi" "Enable"
        "Value of \x7b\x7bparam\x7d\x7d in \x7b\x7bobject\x7d\x7d"
      = "Value of Enable in Device.WiFi" :=
  ⟨fun _ _ _ => rfl, by decide⟩

/-- C4: evaluation at the failing input.  For the standard childless
`boolean` element the `find('boolean')` result is falsy, so `add_syntax`
falls through to the generic first-child branch and annotates with the
lowercase tag `boolean`, not the literal `Boolean`; the childless
`default` element is likewise falsy, so its value is not appended. -/
theorem boolean_annotation_fallthrough :
    getParams p4 = some ("Enable", "readWrite", " boolean Enables it.") := by
  decide

/-- C5 counterexample: for a string parameter with
`<size maxLength="64"/>` the annotation is just "String" — the childless
`size` element is falsy, so the max-length text is dropped, and the
claimed "String, max length 64" never appears. -/
theorem string_maxlength_cex :
    getParams p5 = some ("Host", "readOnly", " String Hostname.") ∧
    (" String Hostname." : String) ≠ " String, max length 64 Hostname." :=
  ⟨by decide, by decide⟩

/-- C5 amended: with a childless `size` element (the standard shape) the
annotation is just "String" and the max length is dropped; were the
`size` element truthy (non-standard children) the annotation would be
"Stringmax length N" with no separator. -/
theorem string_size_annotation (nm ac d n : String) (st an fi : Option String) :
    getParams ⟨nm, ac, some d, st, an, fi, some (sizeSynEmpty n)⟩ =
      some (nm, ac,
        optFlags ⟨nm, ac, some d, st, an, fi, some (sizeSynEmpty n)⟩ ++ " String" ++ " " ++ d) ∧
    getParams ⟨nm, ac, some d, st, an, fi, some (sizeSynChild n)⟩ =
      some (nm, ac,
        optFlags ⟨nm, ac, some d, st, an, fi, some (sizeSynChild n)⟩
          ++ " String" ++ "max length " ++ n ++ " " ++ d) := by
  constructor
  · show some (nm, ac, _ ++ " String" ++ "" ++ " " ++ d) = _
    rw [string_append_empty]
  · show some (nm, ac, _ ++ " String" ++ ("max length " ++ n) ++ " " ++ d) = _
    rw [← string_append_assoc]

/-- C6 counterexample: the requirement is left-justified (padded on the
right) to 12 characters, not left-padded as claimed. -/
theorem profile_padding_cex :
    (parseProfile pr6 ob6).parameters = some (padRight 12 "r" ++ " " ++ "X.E") ∧
    (parseProfile pr6 ob6).parameters ≠ some (padLeftClaim 12 "r" ++ " " ++ "X.E") :=
  ⟨rfl, by decide⟩

/-- C6 amended: the `Parameters` field is the newline-joined lines
"requirement left-justified (right-padded) to 12 characters, a space,
the ref name", in document order, and is omitted (absent key, not empty
string) when the reference has no parameter children. -/
theorem profile_parameters_field (pr : Profile) (o : ProfObjRef) :
    (parseProfile pr o).parameters =
      match o.params with
      | [] => none
      | ps => some (joinSep "\n" (ps.map (fun r => padRight 12 r.requirement ++ " " ++ r.ref))) := by
  cases hp : o.params with
  | nil => simp [parseProfile, hp]
  | cons a t =>
    simp only [parseProfile, hp]
    rfl

theorem findall_enumElem (vs : List String) :
    (vs.map enumElem).filter (fun c => c.tag == "enumeration") = vs.map enumElem := by
  induction vs with
  | nil => rfl
  | cons v vt ih => simp_all [enumElem, XElem.tag]

theorem attr_enumElem (v : String) : (enumElem v).attr "value" = some v := rfl

theorem mapOpt_attr_enumElem (vs : List String) :
    mapOpt (fun e => XElem.attr e "value") (vs.map enumElem) = some vs := by
  induction vs with
  | nil => rfl
  | cons v vt ih => simp [mapOpt, attr_enumElem, ih]

theorem addSyn_stringEnum (prev d : String) (vs : List String) (hvs : vs ≠ []) :
    addSyn (some (stringEnumSyn vs)) prev d =
      some ("Enums (" ++ joinSep "|" vs ++ ")", d) := by
  cases vs with
  | nil => exact absurd rfl hvs
  | cons v vt =>
    have hb : (XElem.mk "syntax" [] none
        [XElem.mk "string" [] none (enumElem v :: List.map enumElem vt)]).find "boolean"
        = none := rfl
    have hs : (XElem.mk "syntax" [] none
        [XElem.mk "string" [] none (enumElem v :: List.map enumElem vt)]).find "string"
        = some (XElem.mk "string" [] none (enumElem v :: List.map enumElem vt)) := rfl
    have hd : (XElem.mk "syntax" [] none
        [XElem.mk "string" [] none (enumElem v :: List.map enumElem vt)]).find "default"
        = none := rfl
    have hfa : (XElem.mk "string" [] none (enumElem v :: List.map enumElem vt)).findall
        "enumeration" = enumElem v :: List.map enumElem vt := by
      simpa [XElem.findall, XElem.children] using findall_enumElem (v :: vt)
    have hm : mapOpt (fun e => XElem.attr e "value") (enumElem v :: List.map enumElem vt)
        = some (v :: vt) := by
      simpa using mapOpt_attr_enumElem (v :: vt)
    simp [addSyn, addSynCore, applyDefault, stringEnumSyn, XElem.children, truthyOpt,
      hb, hs, hd, hfa, hm]

/-- C10: for a string parameter with enumeration children the
enumeration branch *replaces* the accumulated optional-flag prefix: the
parameter description is exactly "Enums (v1|v2|...)" followed by the
description, whatever `status`/`activeNotify`/`forcedInform` were. -/
theorem enum_replaces_flags (nm ac d : String) (st an fi : Option String)
    (vs : List String) (hvs : vs ≠ []) :
    getParams ⟨nm, ac, some d, st, an, fi, some (stringEnumSyn vs)⟩ =
      some (nm, ac, "Enums (" ++ joinSep "|" vs ++ ")" ++ " " ++ d) := by
  simp [getParams, addSyn_stringEnum _ _ vs hvs]

theorem enum_replaces_flags_w :
    (["On", "Off", "Auto"] : List String) ≠ [] ∧
    getParams ⟨"X", "readOnly", some "desc.", some "deprecated", none, none,
        some (stringEnumSyn ["On", "Off", "Auto"])⟩ =
      some ("X", "readOnly",
        "Enums (" ++ joinSep "|" ["On", "Off", "Auto"] ++ ")" ++ " " ++ "desc.") :=
  ⟨by decide,
   enum_replaces_flags "X" "readOnly" "desc." (some "deprecated") none none
     ["On", "Off", "Auto"] (by decide)⟩

/-! ### The Profiles sort (C7) -/

theorem profLe_iff (a b : ProfileRow) :
    profLe a b = true ↔
      (a.profile < b.profile ∨ (a.profile = b.profile ∧
        (a.name < b.name ∨ (a.name = b.name ∧ a.base ≤ b.base)))) := by
  unfold profLe
  by_cases e : a.profile = b.profile
  · by_cases f : a.name = b.name
    · simp [e, f]
    · simp [e, f]
  · simp [e]

theorem profLe_total (a b : ProfileRow) : profLe a b = true ∨ profLe b a = true := by
  rw [profLe_iff, profLe_iff]
  rcases lt_trichotomy a.profile b.profile with h | h | h
  · exact Or.inl (Or.inl h)
  · rcases lt_trichotomy a.name b.name with h2 | h2 | h2
    · exact Or.inl (Or.inr ⟨h, Or.inl h2⟩)
    · rcases le_total a.base b.base with h3 | h3
      · exact Or.inl (Or.inr ⟨h, Or.inr ⟨h2, h3⟩⟩)
      · exact Or.inr (Or.inr ⟨h.symm, Or.inr ⟨h2.symm, h3⟩⟩)
    · exact Or.inr (Or.inr ⟨h.symm, Or.inl h2⟩)
  · exact Or.inr (Or.inl h)

theorem profLe_trans {a b c : ProfileRow}
    (h1 : profLe a b = true) (h2 : profLe b c = true) : profLe a c = true := by
  rw [profLe_iff] at h1 h2 ⊢
  rcases h1 with h1 | ⟨e1, h1⟩
  · rcases h2 with h2 | ⟨e2, _⟩
    · exact Or.inl (h1.trans h2)
    · exact Or.inl (e2 ▸ h1)
  · rcases h2 with h2 | ⟨e2, h2⟩
    · exact Or.inl (e1 ▸ h2)
    · refine Or.inr ⟨e1.trans e2, ?_⟩
      rcases h1 with h1 | ⟨f1, h1⟩
      · rcases h2 with h2 | ⟨f2, _⟩
        · exact Or.inl (h1.trans h2)
        · exact Or.inl (f2 ▸ h1)
      · rcases h2 with h2 | ⟨f2, h2⟩
        · exact Or.inl (f1 ▸ h2)
        · exact Or.inr ⟨f1.trans f2, h1.trans h2⟩

theorem mem_insertRow {z x : ProfileRow} {l : List ProfileRow} :
    z ∈ insertRow x l ↔ z = x ∨ z ∈ l := by
  induction l with
  | nil => simp [insertRow]
  | cons y t ih =>
    by_cases h : profLe x y = true
    · simp [insertRow, h]
    · simp [insertRow, h, ih]
      tauto

theorem pairwise_insertRow (x : ProfileRow) :
    ∀ l : List ProfileRow, l.Pairwise (fun a b => profLe a b = true) →
      (insertRow x l).Pairwise (fun a b => profLe a b = true) := by
  intro l
  induction l with
  | nil =>
    intro _
    simp [insertRow]
  | cons y t ih =>
    intro hl
    rcases List.pairwise_cons.mp hl with ⟨hy, ht⟩
    by_cases h : profLe x y = true
    · rw [insertRow, if_pos h]
      refine List.pairwise_cons.mpr ⟨?_, hl⟩
      intro z hz
      rcases List.mem_cons.mp hz with hzy | hz
      · exact hzy ▸ h
      · exact profLe_trans h (hy z hz)
    · rw [insertRow, if_neg h]
      refine List.pairwise_cons.mpr ⟨?_, ih ht⟩
      intro z hz
      rcases mem_insertRow.mp hz with hzx | hz
      · rw [hzx]
        rcases profLe_total x y with hxy | hyx
        · exact absurd hxy h
        · exact hyx
      · exact hy z hz

theorem profLe_of_keyq {p n b : String} {x y : ProfileRow}
    (hx : keyq p n b x = true) (hy : keyq p n b y = true) : profLe x y = true := by
  unfold keyq at hx hy
  simp only [Bool.and_eq_true, beq_iff_eq] at hx hy
  rw [profLe_iff]
  exact Or.inr ⟨hx.1.1.trans hy.1.1.symm,
    Or.inr ⟨hx.1.2.trans hy.1.2.symm, le_of_eq (hx.2.trans hy.2.symm)⟩⟩

theorem filter_insertRow (x : ProfileRow) (l : List ProfileRow) (p n b : String) :
    (insertRow x l).filter (keyq p n b) =
      if keyq p n b x then x :: l.filter (keyq p n b) else l.filter (keyq p n b) := by
  induction l with
  | nil => cases hx : keyq p n b x <;> simp [insertRow, List.filter_cons, hx]
  | cons y t ih =>
    by_cases h : profLe x y = true
    · rw [insertRow, if_pos h]
      by_cases hx : keyq p n b x = true <;> simp [List.filter_cons, hx]
    · rw [insertRow, if_neg h]
      by_cases hy : keyq p n b y = true
      · by_cases hx : keyq p n b x = true
        · exact absurd (profLe_of_keyq hx hy) h
        · simp [List.filter_cons, hy, hx] at ih ⊢
          exact ih
      · simp [List.filter_cons, hy]
        exact ih

/-- C7: the Profiles table sort is an ascending lexicographic sort on
the (Profile, Name, Base) key (adjacent rows are `profLe`-ordered,
pairwise), and it is stable: for every key value, the subsequence of
rows with that key is exactly the input subsequence, in input order. -/
theorem profiles_sorted_stable :
    ∀ l : List ProfileRow,
      (sortProfiles l).Pairwise (fun a b => profLe a b = true) ∧
      ∀ p n b : String, (sortProfiles l).filter (keyq p n b) = l.filter (keyq p n b) := by
  intro l
  constructor
  · induction l with
    | nil => simp [sortProfiles]
    | cons x t ih => exact pairwise_insertRow x (sortProfiles t) ih
  · intro p n b
    induction l with
    | nil => rfl
    | cons x t ih =>
      rw [sortProfiles, filter_insertRow, List.filter_cons]
      by_cases hx : keyq p n b x = true <;> simp [hx, ih]

/-! ### Failure propagation (C9) -/

theorem mapOpt_none_of_mem (f : α → Option β) {l : List α} {x : α}
    (hx : x ∈ l) (hfx : f x = none) : mapOpt f l = none := by
  induction l with
  | nil => cases hx
  | cons y t ih =>
    rcases List.mem_cons.mp hx with rfl | hx2
    · simp [mapOpt, hfx]
    · cases hy : f y <;> simp [mapOpt, hy, ih hx2]

theorem parseObject_none (o : Object)
    (h : o.description = none ∨ ∃ p ∈ o.params, p.description = none) :
    parseObject o = none := by
  rcases h with h | ⟨p, hp, hpd⟩
  · cases hps : o.params with
    | nil => simp [parseObject, hps, h]
    | cons a t =>
      rw [parseObject, hps]
      refine mapOpt_none_of_mem _ (List.mem_cons_self a t) ?_
      cases hg : getParams a <;> simp [hg, h]
  · have hps : o.params ≠ [] := by
      intro he
      rw [he] at hp
      cases hp
    cases hps2 : o.params with
    | nil => exact absurd hps2 hps
    | cons a t =>
      rw [parseObject, hps2]
      refine mapOpt_none_of_mem _ (hps2 ▸ hp) ?_
      simp [getParams, hpd]

/-- C9: an input in which some object or parameter lacks a description
element makes the conversion fail (`none` — the Python run raises before
reaching the emitter), so no output workbook is produced; the workbook
value is only built after every table is complete. -/
theorem missing_description_fatal (m : Model)
    (h : ∃ o ∈ m.objects, o.description = none ∨ ∃ p ∈ o.params, p.description = none) :
    parseModel m = none := by
  obtain ⟨o, ho, hcase⟩ := h
  have hm : mapOpt parseObject m.objects = none :=
    mapOpt_none_of_mem parseObject ho (parseObject_none o hcase)
  simp [parseModel, hm]

theorem missing_description_fatal_w :
    (∃ o ∈ m9.objects, o.description = none ∨ ∃ p ∈ o.params, p.description = none) ∧
    parseModel m9 = none := by
  have hterm : ∃ o ∈ m9.objects, o.description = none ∨ ∃ p ∈ o.params, p.description = none :=
    ⟨o9, by simp [m9], Or.inr ⟨p9, by simp [o9], rfl⟩⟩
  exact ⟨hterm, missing_description_fatal m9 hterm⟩

/-- C3 counterexample: whitespace normalization is not applied to the
Profiles table — a profile name containing a double space survives into
the Profiles table unchanged, although `process_text` would collapse it. -/
theorem profiles_not_normalized_cex :
    (parseModel m3).map (fun wb => wb.profiles.map ProfileRow.profile) = some ["My  Profile"] ∧
    processText "My  Profile" = "My Profile" ∧
    ("My  Profile" : String) ≠ "My Profile" :=
  ⟨by decide, by decide, by decide⟩

/-! ### The pipeline inversion and per-cell normalization (C3 amended) -/

theorem parseModel_inv (m : Model) (wb : Workbook) (h : parseModel m = some wb) :
    ∃ tbls, mapOpt parseObject m.objects = some tbls ∧
      wb.model = cleanModel tbls.flatten ∧
      wb.profiles = sortProfiles (rawProfileRows m) ∧
      wb.ranges = (dedupFirst (colObjects (cleanModel tbls.flatten))).map
        (mergeRange (colObjects (cleanModel tbls.flatten))) := by
  cases hm : mapOpt parseObject m.objects with
  | none => simp [parseModel, hm] at h
  | some tbls =>
    have h2 : wb = { model := cleanModel tbls.flatten,
                     profiles := sortProfiles (rawProfileRows m),
                     ranges := (dedupFirst (colObjects (cleanModel tbls.flatten))).map
                       (mergeRange (colObjects (cleanModel tbls.flatten))) } := by
      have h3 := h
      unfold parseModel at h3
      rw [hm] at h3
      exact (Option.some.inj h3).symm
    rw [h2]
    exact ⟨tbls, rfl, rfl, rfl, rfl⟩

theorem cleanModel_eq_map (rows : List Row) :
    cleanModel rows = rows.map (fun r =>
      { object := processText r.object
        access := processText r.access
        description := mapParams (processText r.object) (processText r.parameter)
          (processText r.description)
        parameter := processText r.parameter
        paramAccess := processText r.paramAccess
        paramDescription := mapParams (processText r.object) (processText r.parameter)
          (processText r.paramDescription) } : Row → Row) := by
  simp only [cleanModel]
  rw [List.map_map, List.map_map]
  rfl

/-- C3 amended: the whitespace normalization `process_text` is applied
to every cell of the Model table (with the two description columns then
placeholder-resolved against the already-normalized Object and Parameter
cells), while the Profiles table is built and sorted with no per-cell
normalization at all. -/
theorem normalization_model_only (m : Model) (wb : Workbook) (h : parseModel m = some wb) :
    (∃ tbls, mapOpt parseObject m.objects = some tbls ∧
       wb.model = tbls.flatten.map (fun r =>
         { object := processText r.object
           access := processText r.access
           description := mapParams (processText r.object) (processText r.parameter)
             (processText r.description)
           parameter := processText r.parameter
           paramAccess := processText r.paramAccess
           paramDescription := mapParams (processText r.object) (processText r.parameter)
             (processText r.paramDescription) } : Row → Row)) ∧
    wb.profiles = sortProfiles (rawProfileRows m) := by
  obtain ⟨tbls, hm, hmod, hprof, _⟩ := parseModel_inv m wb h
  exact ⟨⟨tbls, hm, by rw [hmod, cleanModel_eq_map]⟩, hprof⟩

theorem normalization_model_only_w :
    parseModel m3 = some wb3 ∧
    ((∃ tbls, mapOpt parseObject m3.objects = some tbls ∧
        wb3.model = tbls.flatten.map (fun r =>
          { object := processText r.object
            access := processText r.access
            description := mapParams (processText r.object) (processText r.parameter)
              (processText r.description)
            parameter := processText r.parameter
            paramAccess := processText r.paramAccess
            paramDescription := mapParams (processText r.object) (processText r.parameter)
              (processText r.paramDescription) } : Row → Row)) ∧
      wb3.profiles = sortProfiles (rawProfileRows m3)) :=
  ⟨rfl, normalization_model_only m3 wb3 rfl⟩

/-! ### The `mapOpt` inversion toolkit (C1, C8) -/

theorem mapOpt_cons_inv {f : α → Option β} {x : α} {t : List α} {ys : List β}
    (h : mapOpt f (x :: t) = some ys) :
    ∃ y ys2, f x = some y ∧ mapOpt f t = some ys2 ∧ ys = y :: ys2 := by
  cases hx : f x with
  | none => simp [mapOpt, hx] at h
  | some y =>
    cases ht : mapOpt f t with
    | none => simp [mapOpt, hx, ht] at h
    | some ys2 =>
      simp [mapOpt, hx, ht] at h
      exact ⟨y, ys2, rfl, rfl, h.symm⟩

theorem mapOpt_append_inv {f : α → Option β} :
    ∀ {l1 : List α} {l2 : List α} {ys : List β}, mapOpt f (l1 ++ l2) = some ys →
      ∃ ys1 ys2, mapOpt f l1 = some ys1 ∧ mapOpt f l2 = some ys2 ∧ ys = ys1 ++ ys2 := by
  intro l1
  induction l1 with
  | nil => exact fun h => ⟨[], _, rfl, h, rfl⟩
  | cons x t ih =>
    intro l2 ys h
    rw [List.cons_append] at h
    obtain ⟨y, ys2, hx, ht, rfl⟩ := mapOpt_cons_inv h
    obtain ⟨ys1, ys3, h1, h2, rfl⟩ := ih ht
    exact ⟨y :: ys1, ys3, by simp [mapOpt, hx, h1], h2, rfl⟩

theorem mapOpt_length {f : α → Option β} :
    ∀ {l : List α} {ys : List β}, mapOpt f l = some ys → ys.length = l.length := by
  intro l
  induction l with
  | nil =>
    intro ys h
    simp [mapOpt] at h
    simp [← h]
  | cons x t ih =>
    intro ys h
    obtain ⟨y, ys2, _, ht, rfl⟩ := mapOpt_cons_inv h
    simp [ih ht]

theorem mapOpt_mem {f : α → Option β} :
    ∀ {l : List α} {ys : List β}, mapOpt f l = some ys →
      ∀ y ∈ ys, ∃ x ∈ l, f x = some y := by
  intro l
  induction l with
  | nil =>
    intro ys h
    simp [mapOpt] at h
    simp [h]
  | cons x t ih =>
    intro ys h
    obtain ⟨y, ys2, hx, ht, rfl⟩ := mapOpt_cons_inv h
    intro z hz
    rcases List.mem_cons.mp hz with hzy | hz2
    · exact ⟨x, List.mem_cons_self x t, hzy ▸ hx⟩
    · obtain ⟨x2, hx2, hfx2⟩ := ih ht z hz2
      exact ⟨x2, List.mem_cons_of_mem x hx2, hfx2⟩

/-! ### `parse_object` facts (C1, C8) -/

theorem parseObject_fields {o : Object} {rows : List Row} (h : parseObject o = some rows) :
    ∀ r ∈ rows, r.object = o.name ∧ r.access = o.access ∧
      ∃ d, o.description = some d ∧ r.description = collapseSpaces d := by
  cases hps : o.params with
  | nil =>
    rw [parseObject, hps] at h
    cases hd : o.description with
    | none => rw [hd] at h; cases h
    | some d =>
      rw [hd] at h
      simp only [Option.some_bind] at h
      obtain rfl := Option.some.inj h
      intro r hr
      obtain rfl := List.mem_singleton.mp hr
      exact ⟨rfl, rfl, d, rfl, rfl⟩
  | cons a t =>
    rw [parseObject, hps] at h
    intro r hr
    obtain ⟨p, _, hfp⟩ := mapOpt_mem h r hr
    cases hg : getParams p with
    | none => rw [hg] at hfp; cases hfp
    | some tri =>
      obtain ⟨n, a2, pd⟩ := tri
      cases hd : o.description with
      | none => rw [hg, hd] at hfp; simp at hfp
      | some d =>
        rw [hg, hd] at hfp
        simp only [Option.some_bind] at hfp
        obtain rfl := Option.some.inj hfp
        exact ⟨rfl, rfl, d, rfl, rfl⟩

theorem parseObject_length {o : Object} {rows : List Row} (h : parseObject o = some rows) :
    rows.length = rowCount o := by
  cases hps : o.params with
  | nil =>
    rw [parseObject, hps] at h
    cases hd : o.description with
    | none => rw [hd] at h; cases h
    | some d =>
      rw [hd] at h
      simp only [Option.some_bind] at h
      obtain rfl := Option.some.inj h
      simp [rowCount, hps]
  | cons a t =>
    rw [parseObject, hps] at h
    rw [mapOpt_length h, rowCount, hps]
    simp

theorem filter_flatten_notmem (v : String) :
    ∀ (os : List Object) (ys : List (List Row)), mapOpt parseObject os = some ys →
      v ∉ os.map Object.name →
      ys.flatten.filter (fun r => r.object == v) = [] := by
  intro os ys h hv
  rw [List.filter_eq_nil_iff]
  intro r hr
  obtain ⟨rows2, hrows2, hrrows⟩ := List.mem_flatten.mp hr
  obtain ⟨o2, ho2, hfo2⟩ := mapOpt_mem h rows2 hrows2
  have hobj := (parseObject_fields hfo2 r hrrows).1
  have hne : o2.name ≠ v := by
    intro he
    exact hv (he ▸ List.mem_map_of_mem Object.name ho2)
  simp [hobj, hne]

/-- C1: for every object of the model (object names being distinct, as
they are path-like in TR-069), the flattened Model table contains
exactly the rows `parse_object` emits for it — `n` rows when it has `n`
parameters and one row with empty parameter fields when it has none —
each repeating the object's name, access and (space-collapsed)
description. -/
theorem flattening_complete (m : Model) (tbls : List (List Row))
    (hm : mapOpt parseObject m.objects = some tbls)
    (hn : (m.objects.map Object.name).Nodup) :
    ∀ o ∈ m.objects, ∃ rows, parseObject o = some rows ∧
      tbls.flatten.filter (fun r => r.object == o.name) = rows ∧
      rows.length = rowCount o ∧
      (∀ r ∈ rows, r.object = o.name ∧ r.access = o.access ∧
        ∃ d, o.description = some d ∧ r.description = collapseSpaces d) ∧
      (o.params = [] → ∃ d, o.description = some d ∧
        rows = [{ object := o.name, access := o.access, description := collapseSpaces d,
                  parameter := "", paramAccess := "", paramDescription := "" }]) := by
  intro o ho
  obtain ⟨l1, l2, hsplit⟩ := List.append_of_mem ho
  rw [hsplit] at hm hn
  rw [List.map_append, List.map_cons] at hn
  rw [List.nodup_append] at hn
  obtain ⟨_, hn2, hdisj⟩ := hn
  have hnotin2 : o.name ∉ l2.map Object.name := (List.nodup_cons.mp hn2).1
  have hnotin1 : o.name ∉ l1.map Object.name := fun hin =>
    hdisj hin (List.mem_cons_self _ _)
  obtain ⟨ys1, ys2, h1, h2, rfl⟩ := mapOpt_append_inv hm
  obtain ⟨rows, ysr, hro, hrest, rfl⟩ := mapOpt_cons_inv h2
  refine ⟨rows, hro, ?_, parseObject_length hro, parseObject_fields hro, ?_⟩
  · rw [List.flatten_append, List.flatten_cons, List.filter_append, List.filter_append]
    rw [filter_flatten_notmem o.name l1 ys1 h1 hnotin1]
    rw [filter_flatten_notmem o.name l2 ysr hrest hnotin2]
    rw [List.filter_eq_self.mpr (fun r hr => by
      simp [(parseObject_fields hro r hr).1])]
    simp
  · intro hnil
    rw [parseObject, hnil] at hro
    cases hd : o.description with
    | none => rw [hd] at hro; cases hro
    | some d =>
      rw [hd] at hro
      simp only [Option.some_bind] at hro
      exact ⟨d, rfl, (Option.some.inj hro).symm⟩

theorem flattening_complete_w :
    (m1.objects.map Object.name).Nodup ∧
    (∀ o ∈ m1.objects, ∃ rows, parseObject o = some rows ∧
      tbls1.flatten.filter (fun r => r.object == o.name) = rows ∧
      rows.length = rowCount o ∧
      (∀ r ∈ rows, r.object = o.name ∧ r.access = o.access ∧
        ∃ d, o.description = some d ∧ r.description = collapseSpaces d) ∧
      (o.params = [] → ∃ d, o.description = some d ∧
        rows = [{ object := o.name, access := o.access, description := collapseSpaces d,
                  parameter := "", paramAccess := "", paramDescription := "" }])) :=
  ⟨by decide, flattening_complete m1 tbls1 rfl (by decide)⟩

/-! ### Index and merge-range machinery (C8) -/

theorem idxs_append (a b : List String) (v : String) :
    idxs (a ++ b) v = idxs a v ++ (idxs b v).map (fun i => i + a.length) := by
  induction a with
  | nil => simp [idxs]
  | cons x a2 ih =>
    show (if x = v then [0] else []) ++ (idxs (a2 ++ b) v).map (fun i => i + 1)
       = ((if x = v then [0] else []) ++ (idxs a2 v).map (fun i => i + 1))
         ++ (idxs b v).map (fun i => i + (a2.length + 1))
    rw [ih, List.map_append, List.map_map, List.append_assoc]
    congr 2

theorem range'_map_add (a : Nat) : ∀ (s k : Nat),
    (List.range' s k).map (fun i => i + a) = List.range' (s + a) k := by
  intro s k
  induction k generalizing s with
  | zero => rfl
  | succ k2 ih =>
    rw [List.range'_succ, List.range'_succ, List.map_cons, ih]
    have he : s + 1 + a = s + a + 1 := by omega
    rw [he]

theorem idxs_replicate_self (n : Nat) (v : String) :
    idxs (List.replicate n v) v = List.range' 0 n := by
  induction n with
  | zero => rfl
  | succ k ih =>
    rw [List.replicate_succ]
    show (if v = v then [0] else []) ++ (idxs (List.replicate k v) v).map (fun i => i + 1) = _
    rw [if_pos rfl, ih, range'_map_add 1 0 k, List.range'_succ]
    rfl

theorem idxs_nil_of_notmem {l : List String} {v : String} (h : v ∉ l) : idxs l v = [] := by
  induction l with
  | nil => rfl
  | cons x t ih =>
    have hx : ¬ x = v := fun he => h (he ▸ List.mem_cons_self x t)
    show (if x = v then [0] else []) ++ _ = []
    rw [if_neg hx, ih (fun ht => h (List.mem_cons_of_mem x ht))]
    rfl

theorem foldl_min_eq : ∀ (l : List Nat) (a : Nat), (∀ x ∈ l, a ≤ x) → l.foldl min a = a := by
  intro l
  induction l with
  | nil => intro a _; rfl
  | cons x t ih =>
    intro a h
    have hm : min a x = a := by
      have := h x (List.mem_cons_self x t)
      omega
    rw [List.foldl_cons, hm]
    exact ih a (fun y hy => h y (List.mem_cons_of_mem x hy))

theorem pyMin_range' (s k : Nat) : pyMin (List.range' s (k + 1)) = s := by
  rw [List.range'_succ, pyMin]
  apply foldl_min_eq
  intro x hx
  have := List.mem_range'_1.mp hx
  omega

theorem foldl_max_eq : ∀ (k a s : Nat), List.foldl max a (List.range' s (k + 1)) = max a (s + k) := by
  intro k
  induction k with
  | zero =>
    intro a s
    rw [List.range'_succ]
    simp
  | succ k2 ih =>
    intro a s
    rw [List.range'_succ, List.foldl_cons, ih (max a s) (s + 1)]
    omega

theorem pyMax_range' (s k : Nat) : pyMax (List.range' s (k + 1)) = s + k := by
  cases k with
  | zero =>
    rw [List.range'_succ]
    rfl
  | succ k2 =>
    rw [List.range'_succ, pyMax, foldl_max_eq k2 s (s + 1)]
    omega

theorem rowCount_pos (o : Object) : ∃ k, rowCount o = k + 1 := by
  rw [rowCount]
  split
  · exact ⟨0, rfl⟩
  · rename_i hne
    cases hp : o.params with
    | nil => rw [hp] at hne; simp at hne
    | cons a t => exact ⟨t.length, rfl⟩

theorem notmem_col (nm : Object → String) {v : String} {os : List Object}
    (h : v ∉ os.map nm) :
    v ∉ os.flatMap (fun x => List.replicate (rowCount x) (nm x)) := by
  intro hmem
  obtain ⟨x, hx, hxv⟩ := List.mem_flatMap.mp hmem
  exact h ((List.eq_of_mem_replicate hxv) ▸ List.mem_map_of_mem nm hx)

theorem idxs_concat_prefix {v : String} {pre : List String} (hv : v ∉ pre) (rest : List String) :
    idxs (pre ++ rest) v = (idxs rest v).map (fun i => i + pre.length) := by
  rw [idxs_append, idxs_nil_of_notmem hv, List.nil_append]

theorem idxs_flatMap_mem (nm : Object → String) :
    ∀ (os : List Object), (os.map nm).Nodup → ∀ {o : Object}, o ∈ os →
      ∃ L k, rowCount o = k + 1 ∧
        idxs (os.flatMap fun x => List.replicate (rowCount x) (nm x)) (nm o)
          = List.range' L (k + 1) := by
  intro os hnodup o ho
  obtain ⟨l1, l2, hsplit⟩ := List.append_of_mem ho
  subst hsplit
  rw [List.map_append, List.map_cons, List.nodup_append] at hnodup
  obtain ⟨_, hn2, hdisj⟩ := hnodup
  have hnot2 : nm o ∉ l2.map nm := (List.nodup_cons.mp hn2).1
  have hnot1 : nm o ∉ l1.map nm := fun hin => hdisj hin (List.mem_cons_self _ _)
  obtain ⟨k, hk⟩ := rowCount_pos o
  refine ⟨(l1.flatMap fun x => List.replicate (rowCount x) (nm x)).length, k, hk, ?_⟩
  rw [List.flatMap_append, List.flatMap_cons,
    idxs_concat_prefix (notmem_col nm hnot1), idxs_append,
    idxs_replicate_self, idxs_nil_of_notmem (notmem_col nm hnot2)]
  simp only [List.map_nil, List.append_nil]
  rw [range'_map_add, hk, Nat.zero_add]

theorem dedupAux_replicate_seen (v : String) (seen : List String)
    (hv : seen.contains v = true) :
    ∀ (j : Nat) (rest : List String),
      dedupAux seen (List.replicate j v ++ rest) = dedupAux seen rest := by
  intro j
  induction j with
  | zero => intro rest; rfl
  | succ j2 ih =>
    intro rest
    rw [List.replicate_succ, List.cons_append]
    show (if seen.contains v then dedupAux seen (List.replicate j2 v ++ rest)
          else v :: dedupAux (v :: seen) (List.replicate j2 v ++ rest)) = _
    rw [if_pos hv, ih rest]

theorem dedupFirst_flatMap (nm : Object → String) :
    ∀ (os : List Object) (seen : List String),
      (∀ x ∈ os, seen.contains (nm x) = false) → (os.map nm).Nodup →
      dedupAux seen (os.flatMap fun x => List.replicate (rowCount x) (nm x)) = os.map nm := by
  intro os
  induction os with
  | nil => intro seen _ _; rfl
  | cons o os2 ih =>
    intro seen hseen hnodup
    rw [List.flatMap_cons]
    obtain ⟨k, hk⟩ := rowCount_pos o
    rw [hk, List.replicate_succ, List.cons_append]
    show (if seen.contains (nm o) then _ else _) = _
    rw [if_neg (by rw [hseen o (List.mem_cons_self o os2)]; exact Bool.false_ne_true)]
    rw [dedupAux_replicate_seen (nm o) (nm o :: seen)
      (by simp [List.contains_cons]) k _]
    rw [List.map_cons]
    congr 1
    rw [List.map_cons, List.nodup_cons] at hnodup
    refine ih (nm o :: seen) ?_ hnodup.2
    intro x hx
    have h1 : seen.contains (nm x) = false := hseen x (List.mem_cons_of_mem o hx)
    have h2 : nm x ≠ nm o := fun he => hnodup.1 (he ▸ List.mem_map_of_mem nm hx)
    simp only [List.contains_cons]
    simp
    exact ⟨h2, by simpa using h1⟩

theorem ranges_pairwise_gen (nm : Object → String) :
    ∀ (os : List Object) (pre : List String),
      (∀ x ∈ os, nm x ∉ pre) → (os.map nm).Nodup →
      (os.map (fun o =>
        mergeRange (pre ++ os.flatMap fun x => List.replicate (rowCount x) (nm x)) (nm o))).Pairwise
        (fun a b => a.2 < b.1) := by
  intro os
  induction os with
  | nil => intro pre _ _; simp
  | cons o os2 ih =>
    intro pre hpre hnodup
    rw [List.map_cons, List.nodup_cons] at hnodup
    obtain ⟨hhead, htail⟩ := hnodup
    obtain ⟨k, hk⟩ := rowCount_pos o
    have hvo : nm o ∉ pre := hpre o (List.mem_cons_self o os2)
    -- the column splits as pre ++ (block of o) ++ (column of os2)
    have hcol : pre ++ (o :: os2).flatMap (fun x => List.replicate (rowCount x) (nm x))
        = (pre ++ List.replicate (rowCount o) (nm o))
          ++ os2.flatMap (fun x => List.replicate (rowCount x) (nm x)) := by
      rw [List.flatMap_cons, List.append_assoc]
    -- the head object's index block
    have hidxo : idxs (pre ++ (o :: os2).flatMap fun x => List.replicate (rowCount x) (nm x)) (nm o)
        = List.range' pre.length (k + 1) := by
      rw [List.flatMap_cons, idxs_concat_prefix hvo, idxs_append, idxs_replicate_self,
        idxs_nil_of_notmem (notmem_col nm hhead)]
      simp only [List.map_nil, List.append_nil]
      rw [range'_map_add, hk, Nat.zero_add]
    have hmro : mergeRange (pre ++ (o :: os2).flatMap fun x => List.replicate (rowCount x) (nm x)) (nm o)
        = (2 + pre.length, 2 + (pre.length + k)) := by
      rw [mergeRange, hidxo, pyMin_range', pyMax_range']
    rw [List.map_cons]
    refine List.pairwise_cons.mpr ⟨?_, ?_⟩
    · -- the head block ends before every later block starts
      intro rng hrng
      obtain ⟨o2, ho2, rfl⟩ := List.mem_map.mp hrng
      obtain ⟨L2, k2, hk2, hidx2⟩ := idxs_flatMap_mem nm os2 htail ho2
      have hvo2 : nm o2 ∉ pre ++ List.replicate (rowCount o) (nm o) := by
        intro hmem
        rcases List.mem_append.mp hmem with hmem | hmem
        · exact hpre o2 (List.mem_cons_of_mem o ho2) hmem
        · exact hhead ((List.eq_of_mem_replicate hmem) ▸ List.mem_map_of_mem nm ho2)
      have hidxfull : idxs (pre ++ (o :: os2).flatMap fun x => List.replicate (rowCount x) (nm x)) (nm o2)
          = List.range' (L2 + (pre.length + (k + 1))) (k2 + 1) := by
        rw [hcol, idxs_concat_prefix hvo2, hidx2, range'_map_add]
        congr 1
        rw [List.length_append, List.length_replicate, hk]
      rw [hmro, mergeRange, hidxfull, pyMin_range']
      show 2 + (pre.length + k) < 2 + (L2 + (pre.length + (k + 1)))
      omega
    · -- the tail is pairwise-disjoint, with the head block absorbed into the prefix
      have htailpre : ∀ x ∈ os2, nm x ∉ pre ++ List.replicate (rowCount o) (nm o) := by
        intro x hx hmem
        rcases List.mem_append.mp hmem with hmem | hmem
        · exact hpre x (List.mem_cons_of_mem o hx) hmem
        · exact hhead ((List.eq_of_mem_replicate hmem) ▸ List.mem_map_of_mem nm hx)
      rw [hcol]
      exact ih (pre ++ List.replicate (rowCount o) (nm o)) htailpre htail

theorem model_col (os : List Object) (tbls : List (List Row))
    (h : mapOpt parseObject os = some tbls) :
    colObjects (cleanModel tbls.flatten)
      = os.flatMap (fun o => List.replicate (rowCount o) (processText o.name)) := by
  have hraw : tbls.flatten.map Row.object
      = os.flatMap (fun o => List.replicate (rowCount o) o.name) := by
    induction os generalizing tbls with
    | nil =>
      have hte : tbls = [] := by simpa [mapOpt] using h.symm
      subst hte
      rfl
    | cons o os2 ih =>
      obtain ⟨rows, tbls2, ho, ht, rfl⟩ := mapOpt_cons_inv h
      rw [List.flatten_cons, List.map_append, ih tbls2 ht, List.flatMap_cons]
      congr 1
      have hmem : ∀ b ∈ rows.map Row.object, b = o.name := by
        intro b hb
        obtain ⟨r, hr, rfl⟩ := List.mem_map.mp hb
        exact (parseObject_fields ho r hr).1
      have hlen : (rows.map Row.object).length = rowCount o := by
        rw [List.length_map]
        exact parseObject_length ho
      calc rows.map Row.object
          = List.replicate (rows.map Row.object).length o.name :=
            List.eq_replicate_of_mem hmem
        _ = List.replicate (rowCount o) o.name := by rw [hlen]
  have hclean : colObjects (cleanModel tbls.flatten)
      = (tbls.flatten.map Row.object).map processText := by
    rw [colObjects, cleanModel_eq_map, List.map_map, List.map_map]
    rfl
  rw [hclean, hraw, List.map_flatMap]
  simp [List.map_replicate]

/-- C8: with distinct (normalized) object names, the merge-range list
is exactly one range per object, in order; each object's range covers a
contiguous index block whose size is the number of flattened rows the
object produced (`max + 1 = min + rowCount`, with exactly `rowCount`
indices carrying the object's name — so the block is the full interval);
and the ranges of distinct objects are pairwise disjoint (each ends
strictly before the next begins). -/
theorem grouping_correct (m : Model) (wb : Workbook)
    (h : parseModel m = some wb)
    (hn : (m.objects.map (fun o => processText o.name)).Nodup) :
    wb.ranges = m.objects.map (fun o => mergeRange (colObjects wb.model) (processText o.name)) ∧
    (∀ o ∈ m.objects,
      (idxs (colObjects wb.model) (processText o.name)).length = rowCount o ∧
      (mergeRange (colObjects wb.model) (processText o.name)).2 + 1
        = (mergeRange (colObjects wb.model) (processText o.name)).1 + rowCount o) ∧
    wb.ranges.Pairwise (fun a b => a.2 < b.1) := by
  obtain ⟨tbls, hm, hmod, hprof, hran⟩ := parseModel_inv m wb h
  have hcol : colObjects wb.model
      = m.objects.flatMap (fun o => List.replicate (rowCount o) (processText o.name)) := by
    rw [hmod]
    exact model_col m.objects tbls hm
  have hdd : dedupFirst (colObjects wb.model)
      = m.objects.map (fun o => processText o.name) := by
    rw [hcol]
    exact dedupFirst_flatMap (fun o => processText o.name) m.objects [] (fun x _ => rfl) hn
  have hranges : wb.ranges
      = m.objects.map (fun o => mergeRange (colObjects wb.model) (processText o.name)) := by
    rw [hran, ← hmod, hdd, List.map_map]
    rfl
  refine ⟨hranges, ?_, ?_⟩
  · intro o ho
    obtain ⟨L, k, hk, hidx⟩ :=
      idxs_flatMap_mem (fun o2 => processText o2.name) m.objects hn ho
    rw [hcol]
    constructor
    · rw [hidx, List.length_range', hk]
    · rw [mergeRange, hidx, pyMin_range', pyMax_range', hk]
      omega
  · rw [hranges, List.pairwise_map]
    have hpw := ranges_pairwise_gen (fun o => processText o.name) m.objects []
      (fun x _ => List.not_mem_nil _) hn
    rw [List.nil_append, List.pairwise_map] at hpw
    rw [hcol]
    exact hpw

theorem grouping_correct_w :
    (m8.objects.map (fun o => processText o.name)).Nodup ∧
    (wb8.ranges = m8.objects.map (fun o => mergeRange (colObjects wb8.model) (processText o.name)) ∧
     (∀ o ∈ m8.objects,
       (idxs (colObjects wb8.model) (processText o.name)).length = rowCount o ∧
       (mergeRange (colObjects wb8.model) (processText o.name)).2 + 1
         = (mergeRange (colObjects wb8.model) (processText o.name)).1 + rowCount o) ∧
     wb8.ranges.Pairwise (fun a b => a.2 < b.1)) :=
  ⟨by decide, grouping_correct m8 wb8 rfl (by decide)⟩

end TR069
